import Mathlib

/-!
Verification of the job-claiming protocol and transcode pipeline of
`transcode.py` (with its companion scanner `analyze_codecs.py`).

The embedding models:
* Python string helpers (`str.strip`, `str.lstrip`, `os.path.join`,
  `os.path.dirname`, `os.path.basename`) over `String`;
* the item-lock marker protocol (`make_item_lock`, `release_item_lock`)
  over a set of existing lock-marker paths, represented as `List String`;
* the list-claiming function `acquire_next_job_from_list` over the job-list
  artifact, represented as the list of its raw text lines;
* the per-file pipeline `transcode_file` over a small filesystem model
  (association list from path to abstract content), with the behaviour of
  the external `ffprobe` / `ffmpeg` processes and of environment-caused
  OS errors given by an oracle `Env`; exceptions that the Python code does
  not catch are modelled by the `Except` error case;
* one iteration of the `worker` loop on a claimed job, and a small-step
  system of W workers running the claim protocol concurrently.
-/

namespace Transcode

/-- The single-quote character (written via its code point). -/
def squote : Char := Char.ofNat 39

/-- The double-quote character (written via its code point). -/
def dquote : Char := Char.ofNat 34

/-- Drop the longest suffix whose characters satisfy `p`. -/
def dropWhileEnd (p : Char → Bool) (l : List Char) : List Char :=
  (l.reverse.dropWhile p).reverse

/-- Python `s.strip(c)` for a one-character strip set: remove all leading and
trailing occurrences of `c`. -/
def pyStripChar (c : Char) (s : String) : String :=
  String.mk (dropWhileEnd (fun d => d == c) (s.data.dropWhile (fun d => d == c)))

/-- Python `s.strip()`: remove leading and trailing whitespace. -/
def pyStripWS (s : String) : String :=
  String.mk (dropWhileEnd Char.isWhitespace (s.data.dropWhile Char.isWhitespace))

/-- Python `s.lstrip("/")`: remove all leading `/` characters. -/
def pyLStripSlash (s : String) : String :=
  String.mk (s.data.dropWhile (fun d => d == '/'))

/-- Python `s.rstrip("/")`: remove all trailing `/` characters. -/
def pyRStripSlash (s : String) : String :=
  String.mk (dropWhileEnd (fun d => d == '/') s.data)

/-- Python `s.lower()` restricted to the characters we meet. -/
def pyLower (s : String) : String := String.mk (s.data.map Char.toLower)

/-- `os.path.join a b` (POSIX, two components, as in the source): if `b` is
absolute it wins; otherwise it is appended to `a`, inserting `/` unless `a`
is empty or already ends in `/`. -/
def os_path_join (a b : String) : String :=
  if b.data.head? = some '/' then b
  else if a = "" then b
  else if a.data.getLast? = some '/' then a ++ b
  else a ++ "/" ++ b

/-- The head part of Python `os.path.split`: everything up to and including
the last `/` of the path (empty when there is no `/`). -/
def splitHead (s : String) : String :=
  String.mk (s.data.reverse.dropWhile (fun d => d != '/')).reverse

/-- `os.path.basename`: everything after the last `/`. -/
def os_path_basename (s : String) : String :=
  String.mk (s.data.reverse.takeWhile (fun d => d != '/')).reverse

/-- `os.path.dirname`: the head part, stripped of trailing slashes unless it
consists only of slashes. -/
def os_path_dirname (s : String) : String :=
  let h := splitHead s
  if h.data.all (fun d => d == '/') then h
  else String.mk (dropWhileEnd (fun d => d == '/') h.data)

/-- `original_path + ".old"`, the backup path of `transcode_file`. -/
def backupPathOf (p : String) : String := p ++ ".old"

/-- `os.path.join(dir_name, f".\x7bbase_name\x7d.tmp.mkv")`, the temporary
output path of `transcode_file`. -/
def tempPathOf (p : String) : String :=
  os_path_join (os_path_dirname p) ("." ++ os_path_basename p ++ ".tmp.mkv")

/-- `path + ".transcode.lock"`, the item-lock marker path. -/
def lockPathOf (p : String) : String := p ++ ".transcode.lock"

/-- `make_item_lock`: exclusive creation of the lock marker. Succeeds and
adds the marker exactly when it does not already exist; on `FileExistsError`
returns `none` and leaves the marker set unchanged. -/
def make_item_lock (locks : List String) (path : String) :
    Option String × List String :=
  let lock_path := lockPathOf path
  if lock_path ∈ locks then (none, locks)
  else (some lock_path, lock_path :: locks)

/-- `release_item_lock`: remove the marker if present; a `none` handle or an
absent marker leaves the set unchanged (the Python code checks existence and
swallows every exception). -/
def release_item_lock (locks : List String) (lock_path : Option String) :
    List String :=
  match lock_path with
  | none => locks
  | some lp => locks.filter (fun q => q ≠ lp)

/-- The non-blank stripped lines of the job-list artifact
(`[ln.strip() for ln in f if ln.strip()]`). -/
def linesOf (artifact : List String) : List String :=
  (artifact.map pyStripWS).filter (fun l => l ≠ "")

/-- `rel.strip('"').strip("'")`: strip double quotes, then single quotes. -/
def cleanLine (rel : String) : String :=
  pyStripChar squote (pyStripChar dquote rel)

/-- `os.path.join(base_path, rel_clean.lstrip("/"))`. -/
def resolve_full_path (base rel_clean : String) : String :=
  os_path_join base (pyLStripSlash rel_clean)

/-- Resolution of one raw list line: quote stripping then base-joining. -/
def resolveLine (base rel : String) : String :=
  resolve_full_path base (cleanLine rel)

/-- The scan loop of `acquire_next_job_from_list`: walk the stripped lines in
order, attempting `make_item_lock` on each resolved path; return the index of
the first line whose lock could be created, together with its resolved path
and lock path. Failed attempts do not mutate the marker set. -/
def claim_scan (base : String) (locks : List String) :
    List String → Option (Nat × String × String)
  | [] => none
  | rel :: rest =>
    let full := resolveLine base rel
    match make_item_lock locks full with
    | (some lp, _) => some (0, full, lp)
    | (none, _) =>
      match claim_scan base locks rest with
      | none => none
      | some (i, f, l) => some (i + 1, f, l)

/-- `acquire_next_job_from_list`, acting on the artifact's raw lines and the
marker set, all under the whole-artifact exclusive lock.  Returns the Python
return value (`(chosen_full, chosen_lock)` or `(None, None)`, modelled as an
`Option` pair) together with the new artifact lines and the new marker set:
* no non-blank line: the artifact is truncated, return value `none`;
* no line lockable: the artifact is left untouched, return value `none`;
* otherwise: the chosen line is deleted, the remaining stripped lines are
  rewritten in order, and the created marker is added. -/
def acquire_next_job_from_list (base : String) (artifact : List String)
    (locks : List String) :
    Option (String × String) × List String × List String :=
  let lines := linesOf artifact
  if lines = [] then (none, [], locks)
  else
    match claim_scan base locks lines with
    | none => (none, artifact, locks)
    | some (i, full, lp) => (some (full, lp), lines.eraseIdx i, lp :: locks)

/-! ### Filesystem model and the transcode pipeline -/

/-- A filesystem: an association list from path to abstract file content. -/
abbrev FS := List (String × Nat)

/-- Content of the file at `p`, if any. -/
def fsLookup (fs : FS) (p : String) : Option Nat :=
  match fs with
  | [] => none
  | (q, c) :: rest => if q = p then some c else fsLookup rest p

/-- Remove any entry at `p`. -/
def fsErase (fs : FS) (p : String) : FS :=
  fs.filter (fun e => e.1 ≠ p)

/-- Create or overwrite the file at `p` with content `c`. -/
def fsWrite (fs : FS) (p : String) (c : Nat) : FS :=
  (p, c) :: fsErase fs p

/-- `os.path.isfile` / `os.path.exists` on the model. -/
def os_path_isfile (fs : FS) (p : String) : Bool :=
  (fsLookup fs p).isSome

/-- `os.rename src dst`: moves the file, overwriting `dst`; raises (`none`)
when `src` does not exist. -/
def os_rename (fs : FS) (src dst : String) : Option FS :=
  match fsLookup fs src with
  | none => none
  | some c => some (fsWrite (fsErase fs src) dst c)

/-- `os.remove p`: deletes the file; raises (`none`) when absent. -/
def os_remove (fs : FS) (p : String) : Option FS :=
  match fsLookup fs p with
  | none => none
  | some _ => some (fsErase fs p)

/-- Behaviour of the external `ffprobe` invocation inside `get_video_codec`:
normal termination with some stdout, a non-zero exit
(`subprocess.CalledProcessError`, which the code catches), or any other
exception (for example `FileNotFoundError` when the binary is missing),
which the code does not catch. -/
inductive ProbeBeh
  | ok (out : String)
  | procErr
  | osErr
deriving DecidableEq

/-- Behaviour of the external `ffmpeg` invocation: success writing the
temporary output, failure with an optional leftover temporary output, or an
exception other than `CalledProcessError` (uncaught). -/
inductive EncodeBeh
  | ok (bytes : Nat)
  | fail (tempOut : Option Nat)
  | osErr
deriving DecidableEq

/-- Oracle for one run of `transcode_file` on one file: how the external
processes behave, and whether the environment makes the backup rename raise
(for example a permission error). -/
structure Env where
  probe : ProbeBeh
  encode : EncodeBeh
  backupRenameEnvFail : Bool
deriving DecidableEq

/-- The configured inefficient-codec set of `transcode.py`. -/
def inefficient_codecs : List String := ["h264", "mpeg4", "vc1"]

/-- `get_video_codec`: run ffprobe, strip and lowercase its stdout, map empty
output to `None`; `CalledProcessError` is caught and becomes `None`; any
other exception propagates (`Except.error`). -/
def get_video_codec (env : Env) : Except Unit (Option String) :=
  match env.probe with
  | .ok out =>
    let codec := pyLower (pyStripWS out)
    .ok (if codec = "" then none else some codec)
  | .procErr => .ok none
  | .osErr => .error ()

/-- `transcode_file` on the filesystem model.  Returns `.ok (outcome, fs)` on
normal return (`True` / `False`), or `.error fs` when an exception escapes
the function (the Python code only catches `subprocess.CalledProcessError`
around the encode step and `Exception` around the backup rename and the
rollback steps). -/
def transcode_file (env : Env) (fs : FS) (original_path : String) :
    Except FS (Bool × FS) :=
  if ¬ os_path_isfile fs original_path then .ok (false, fs)
  else
    match get_video_codec env with
    | .error _ => .error fs
    | .ok none => .ok (false, fs)
    | .ok (some codec) =>
      if codec ∈ inefficient_codecs then
        let backup_path := backupPathOf original_path
        let temp_output := tempPathOf original_path
        if env.backupRenameEnvFail then .ok (false, fs)
        else
          match os_rename fs original_path backup_path with
          | none => .ok (false, fs)
          | some fs1 =>
            match env.encode with
            | .osErr => .error fs1
            | .ok newBytes =>
              let fs2 := fsWrite fs1 temp_output newBytes
              match os_rename fs2 temp_output original_path with
              | none => .error fs2
              | some fs3 =>
                match os_remove fs3 backup_path with
                | none => .error fs3
                | some fs4 => .ok (true, fs4)
            | .fail tempOut =>
              let fs2 := match tempOut with
                | none => fs1
                | some c => fsWrite fs1 temp_output c
              let fs3 := if os_path_isfile fs2 backup_path then
                  (os_rename fs2 backup_path original_path).getD fs2
                else fs2
              let fs4 := if os_path_isfile fs3 temp_output then
                  (os_remove fs3 temp_output).getD fs3
                else fs3
              .ok (false, fs4)
      else .ok (true, fs)

/-! ### One worker iteration on a claimed job -/

/-- `log_failure`: append one line to the failure log. -/
def log_failure (failLog : List String) (path : String) : List String :=
  failLog ++ [path]

/-- The relative path the worker logs:
strip `base_path.rstrip("/") + "/"` when the job path starts with it. -/
def relPathOf (base job : String) : String :=
  let b := pyRStripSlash base
  if (b ++ "/").data.isPrefixOf job.data then
    String.mk (job.data.drop (b.data.length + 1))
  else job

/-- Result of one worker iteration on a claimed job: normal completion with
the pipeline outcome, or thread termination by an uncaught exception. -/
inductive WorkerResult
  | done (ok : Bool) (fs : FS) (failLog : List String)
  | crashed (fs : FS) (failLog : List String)
deriving DecidableEq

/-- One iteration of `worker` on a claimed job: run `transcode_file`; on a
`False` outcome append the relative path to the failure log; the `finally`
block releases the item lock on every exit path, including when an uncaught
exception is propagating (which then terminates the thread: `crashed`). -/
def worker_process_claimed (env : Env) (fs : FS) (failLog : List String)
    (locks : List String) (base job lock_path : String) :
    WorkerResult × List String :=
  match transcode_file env fs job with
  | .ok (ok, fs1) =>
    let log1 := if ok then failLog else log_failure failLog (relPathOf base job)
    (.done ok fs1 log1, release_item_lock locks (some lock_path))
  | .error fs1 => (.crashed fs1 failLog, release_item_lock locks (some lock_path))

/-! ### The worker pool as a small-step system.

`acquire_next_job_from_list` runs under `list_file_lock` plus the `flock`
on the artifact, so each call is one atomic step with respect to the other
workers; processing and `release_item_lock` happen outside the critical
section.  A system state records the artifact lines, the set of existing
lock markers, each worker's phase, and the multiset of paths already
attempted (in completion order). -/

/-- Phase of one worker: between jobs, or holding a claimed job and its
lock handle. -/
inductive WPhase
  | idle
  | claimed (full lock : String)
deriving DecidableEq

/-- Global state of the pool run. -/
structure Sys where
  artifact : List String
  locks : List String
  phases : List WPhase
  attempted : List String
deriving DecidableEq

/-- The resolved paths of the jobs currently claimed by some worker. -/
def inFlightOf (phases : List WPhase) : List String :=
  phases.filterMap (fun ph => match ph with
    | WPhase.idle => none
    | WPhase.claimed f _ => some f)

/-- The resolved full paths of the artifact's current lines, in order. -/
def resolvedList (base : String) (artifact : List String) : List String :=
  (linesOf artifact).map (resolveLine base)

/-- One atomic step of the pool: an idle worker runs
`acquire_next_job_from_list` (claiming a job or not), or a worker finishes
its claimed job — attempting it and then releasing its item lock (the
`finally` block). -/
inductive Step (base : String) : Sys → Sys → Prop where
  | acquireClaimed (s : Sys) (w : Nat) (full lp : String)
      (art' locks' : List String)
      (hw : s.phases[w]? = some WPhase.idle)
      (hacq : acquire_next_job_from_list base s.artifact s.locks =
        (some (full, lp), art', locks')) :
      Step base s ⟨art', locks', s.phases.set w (WPhase.claimed full lp),
        s.attempted⟩
  | acquireNone (s : Sys) (w : Nat) (art' locks' : List String)
      (hw : s.phases[w]? = some WPhase.idle)
      (hacq : acquire_next_job_from_list base s.artifact s.locks =
        (none, art', locks')) :
      Step base s ⟨art', locks', s.phases, s.attempted⟩
  | finish (s : Sys) (w : Nat) (full lp : String)
      (hw : s.phases[w]? = some (WPhase.claimed full lp)) :
      Step base s ⟨s.artifact, release_item_lock s.locks (some lp),
        s.phases.set w WPhase.idle, s.attempted ++ [full]⟩

/-- Initial state: the scanner's artifact, no lock markers, `W` idle
workers, nothing attempted. -/
def initSys (artifact : List String) (W : Nat) : Sys :=
  ⟨artifact, [], List.replicate W WPhase.idle, []⟩

/-- Reachability along pool steps. -/
def Reaches (base : String) : Sys → Sys → Prop :=
  Relation.ReflTransGen (Step base)

/-- Inductive invariant of the pool run: the artifact's resolved lines, the
in-flight claims and the attempted paths partition the initial job multiset;
the lock markers are exactly the lock paths of the in-flight claims; and
every claimed phase holds the lock path of its own job. -/
structure SysInv (base : String) (init : Multiset String) (s : Sys) : Prop where
  msum : (resolvedList base s.artifact : Multiset String)
      + (inFlightOf s.phases : Multiset String)
      + (s.attempted : Multiset String) = init
  locks_eq : (s.locks : Multiset String)
      = Multiset.map lockPathOf (inFlightOf s.phases : Multiset String)
  lock_shape : ∀ (w : Nat) (f l : String),
      s.phases[w]? = some (WPhase.claimed f l) →
      l = lockPathOf f

/-! ### Generic helper lemmas on character lists -/

theorem dropWhile_head_false {p : Char → Bool} {l : List Char}
    (h : ∀ a, l.head? = some a → p a = false) : l.dropWhile p = l := by
  cases l with
  | nil => rfl
  | cons a t => simp [List.dropWhile_cons, h a rfl]

theorem dropWhileEnd_getLast_false {p : Char → Bool} {l : List Char}
    (h : ∀ a, l.getLast? = some a → p a = false) : dropWhileEnd p l = l := by
  unfold dropWhileEnd
  rw [dropWhile_head_false, List.reverse_reverse]
  intro a ha
  exact h a (by rwa [List.head?_reverse] at ha)

theorem dropWhileEnd_append_singleton {p : Char → Bool} {c : Char}
    (l : List Char) (h : p c = true) :
    dropWhileEnd p (l ++ [c]) = dropWhileEnd p l := by
  unfold dropWhileEnd
  rw [List.reverse_append]
  simp [List.dropWhile_cons, h]

theorem head?_dropWhile_false {p : Char → Bool} :
    ∀ (l : List Char) (a : Char), (l.dropWhile p).head? = some a → p a = false := by
  intro l
  induction l with
  | nil => intro a h; simp at h
  | cons b t ih =>
    intro a h
    rw [List.dropWhile_cons] at h
    by_cases hb : p b = true
    · rw [if_pos hb] at h; exact ih a h
    · rw [if_neg hb] at h
      simp only [List.head?_cons, Option.some.injEq] at h
      subst h
      exact Bool.eq_false_iff.mpr hb

theorem getLast?_dropWhileEnd_false {p : Char → Bool} (l : List Char) (a : Char)
    (h : (dropWhileEnd p l).getLast? = some a) : p a = false := by
  unfold dropWhileEnd at h
  rw [← List.head?_reverse, List.reverse_reverse] at h
  exact head?_dropWhile_false _ a h

/-! ### Quote stripping and path resolution (claim C9) -/

theorem pyStripChar_eq_self {c : Char} {s : String}
    (h1 : ∀ a, s.data.head? = some a → (a == c) = false)
    (h2 : ∀ a, s.data.getLast? = some a → (a == c) = false) :
    pyStripChar c s = s := by
  unfold pyStripChar
  rw [dropWhile_head_false h1, dropWhileEnd_getLast_false h2]

theorem pyStripChar_wrap (c : Char) (s : String) :
    pyStripChar c (String.mk (c :: s.data ++ [c])) = pyStripChar c s := by
  unfold pyStripChar
  show String.mk (dropWhileEnd _ ((c :: (s.data ++ [c])).dropWhile _)) = _
  simp only [List.dropWhile_cons, beq_self_eq_true, if_true]
  rw [List.dropWhile_append]
  by_cases hemp : (s.data.dropWhile (fun d => d == c)).isEmpty = true
  · rw [if_pos hemp]
    rw [List.isEmpty_iff] at hemp
    rw [hemp]
    simp [List.dropWhile_cons]
  · rw [if_neg hemp]
    rw [dropWhileEnd_append_singleton _ (by simp)]

/-- C9 counterexample: the claim says an absolute path identifies the file
directly, but `acquire_next_job_from_list` strips the leading separators of
every line and joins the remainder to the base directory, so the absolute
line `/etc/x` is resolved to `/data/etc/x`, not to `/etc/x`. -/
theorem c9_counterexample :
    resolveLine "/data" "/etc/x" = "/data/etc/x" ∧
    resolveLine "/data" "/etc/x" ≠ "/etc/x" := by
  constructor <;> decide

/-- C9 (amended): surrounding double quotes are stripped, then surrounding
single quotes; afterwards every path — absolute or not — has all of its
leading path separators removed and the remainder is joined to the base
directory, so an absolute path is re-rooted under the base directory rather
than identifying the file directly. -/
theorem c9_amended :
    (∀ s : String,
      cleanLine (String.mk (dquote :: s.data ++ [dquote])) = cleanLine s)
    ∧ (∀ s : String,
      (∀ a, s.data.head? = some a → a ≠ dquote ∧ a ≠ squote) →
      (∀ a, s.data.getLast? = some a → a ≠ dquote ∧ a ≠ squote) →
      cleanLine (String.mk (squote :: s.data ++ [squote])) = s ∧
        cleanLine s = s)
    ∧ (∀ (base : String) (l : List Char),
      resolve_full_path base (String.mk ('/' :: l)) =
        resolve_full_path base (String.mk l))
    ∧ (∀ (base c : String),
      base ≠ "" →
      base.data.getLast? ≠ some '/' →
      c.data.head? ≠ some '/' →
      resolve_full_path base c = base ++ "/" ++ c) := by
  refine ⟨?_, ?_, ?_, ?_⟩
  · intro s
    unfold cleanLine
    rw [pyStripChar_wrap]
  · intro s h1 h2
    have hd : pyStripChar dquote (String.mk (squote :: s.data ++ [squote])) =
        String.mk (squote :: s.data ++ [squote]) := by
      apply pyStripChar_eq_self
      · intro a ha
        have ha' : squote = a := by simpa using ha
        subst ha'
        decide
      · intro a ha
        have hl : ((squote :: s.data) ++ [squote]).getLast? = some a := ha
        rw [List.getLast?_concat] at hl
        have ha' : squote = a := by simpa using hl
        subst ha'
        decide
    have hsself : pyStripChar squote s = s := by
      apply pyStripChar_eq_self
      · intro a ha
        exact beq_eq_false_iff_ne.mpr (h1 a ha).2
      · intro a ha
        exact beq_eq_false_iff_ne.mpr (h2 a ha).2
    have hdself : pyStripChar dquote s = s := by
      apply pyStripChar_eq_self
      · intro a ha
        exact beq_eq_false_iff_ne.mpr (h1 a ha).1
      · intro a ha
        exact beq_eq_false_iff_ne.mpr (h2 a ha).1
    constructor
    · unfold cleanLine
      rw [hd, pyStripChar_wrap, hsself]
    · unfold cleanLine
      rw [hdself, hsself]
  · intro base l
    unfold resolve_full_path pyLStripSlash
    simp [List.dropWhile_cons]
  · intro base c hbase hlast hhead
    unfold resolve_full_path pyLStripSlash
    rw [dropWhile_head_false]
    · unfold os_path_join
      rw [if_neg (by simpa using hhead), if_neg hbase, if_neg hlast]
    · intro a ha
      rw [ha] at hhead
      simpa using fun h => hhead (by rw [h])

/-! ### Behaviour of the claim scan and of `acquire_next_job_from_list` -/

theorem make_item_lock_mem {locks : List String} {path : String}
    (h : lockPathOf path ∈ locks) : make_item_lock locks path = (none, locks) := by
  simp only [make_item_lock]
  rw [if_pos h]

theorem make_item_lock_not_mem {locks : List String} {path : String}
    (h : lockPathOf path ∉ locks) :
    make_item_lock locks path = (some (lockPathOf path), lockPathOf path :: locks) := by
  simp only [make_item_lock]
  rw [if_neg h]

theorem claim_scan_none_of_all_locked {base : String} {locks : List String} :
    ∀ {l : List String},
    (∀ rel ∈ l, lockPathOf (resolveLine base rel) ∈ locks) →
    claim_scan base locks l = none := by
  intro l
  induction l with
  | nil => intro _; rfl
  | cons rel rest ih =>
    intro h
    have hmem : lockPathOf (resolveLine base rel) ∈ locks :=
      h rel (List.mem_cons_self rel rest)
    have hrest := ih (fun r hr => h r (List.mem_cons_of_mem rel hr))
    simp only [claim_scan]
    rw [make_item_lock_mem hmem, hrest]

theorem claim_scan_some_spec {base : String} {locks : List String} :
    ∀ {l : List String} {i : Nat} {full lp : String},
    claim_scan base locks l = some (i, full, lp) →
    ∃ rel, l[i]? = some rel ∧ full = resolveLine base rel ∧
      lp = lockPathOf full ∧ lp ∉ locks ∧
      ∀ j, j < i → ∀ rel', l[j]? = some rel' →
        lockPathOf (resolveLine base rel') ∈ locks := by
  intro l
  induction l with
  | nil => intro i full lp h; simp [claim_scan] at h
  | cons rel rest ih =>
    intro i full lp h
    simp only [claim_scan] at h
    by_cases hmem : lockPathOf (resolveLine base rel) ∈ locks
    · rw [make_item_lock_mem hmem] at h
      cases hscan : claim_scan base locks rest with
      | none => rw [hscan] at h; simp at h
      | some v =>
        obtain ⟨i', full', lp'⟩ := v
        rw [hscan] at h
        simp only [Option.some.injEq, Prod.mk.injEq] at h
        obtain ⟨hi, hfull, hlp⟩ := h
        subst hi hfull hlp
        obtain ⟨rel0, hrel0, h2, h3, h4, h5⟩ := ih hscan
        refine ⟨rel0, ?_, h2, h3, h4, ?_⟩
        · simpa using hrel0
        · intro j hj rel' hget
          cases j with
          | zero =>
            simp only [List.getElem?_cons_zero, Option.some.injEq] at hget
            subst hget
            exact hmem
          | succ j' =>
            rw [List.getElem?_cons_succ] at hget
            exact h5 j' (by omega) rel' hget
    · rw [make_item_lock_not_mem hmem] at h
      simp only [Option.some.injEq, Prod.mk.injEq] at h
      obtain ⟨hi, hfull, hlp⟩ := h
      subst hi hfull hlp
      refine ⟨rel, by simp, rfl, rfl, hmem, ?_⟩
      intro j hj
      omega

theorem acquire_empty {base : String} {artifact locks : List String}
    (h : linesOf artifact = []) :
    acquire_next_job_from_list base artifact locks = (none, [], locks) := by
  simp only [acquire_next_job_from_list]
  rw [h]
  simp

theorem acquire_transient {base : String} {artifact locks : List String}
    (h1 : linesOf artifact ≠ [])
    (h2 : claim_scan base locks (linesOf artifact) = none) :
    acquire_next_job_from_list base artifact locks = (none, artifact, locks) := by
  simp only [acquire_next_job_from_list]
  rw [if_neg h1, h2]

theorem acquire_of_scan_some {base : String} {artifact locks : List String}
    {i : Nat} {full lp : String}
    (hscan : claim_scan base locks (linesOf artifact) = some (i, full, lp)) :
    acquire_next_job_from_list base artifact locks =
      (some (full, lp), (linesOf artifact).eraseIdx i, lp :: locks) := by
  have h1 : linesOf artifact ≠ [] := by
    intro hnil
    rw [hnil] at hscan
    simp [claim_scan] at hscan
  simp only [acquire_next_job_from_list]
  rw [if_neg h1, hscan]

theorem acquire_some_inv {base : String} {artifact locks : List String}
    {full lp : String} {art' locks' : List String}
    (h : acquire_next_job_from_list base artifact locks =
      (some (full, lp), art', locks')) :
    ∃ i, claim_scan base locks (linesOf artifact) = some (i, full, lp) ∧
      art' = (linesOf artifact).eraseIdx i ∧ locks' = lp :: locks := by
  by_cases h1 : linesOf artifact = []
  · rw [acquire_empty h1] at h
    simp at h
  · cases hscan : claim_scan base locks (linesOf artifact) with
    | none =>
      rw [acquire_transient h1 hscan] at h
      simp at h
    | some v =>
      obtain ⟨i, f, l⟩ := v
      rw [acquire_of_scan_some hscan] at h
      simp only [Prod.mk.injEq, Option.some.injEq] at h
      obtain ⟨⟨hf, hl⟩, ha, hk⟩ := h
      refine ⟨i, ?_, ha.symm, ?_⟩
      · rw [hf, hl]
      · rw [← hk, hl]

theorem acquire_none_inv {base : String} {artifact locks : List String}
    {art' locks' : List String}
    (h : acquire_next_job_from_list base artifact locks = (none, art', locks')) :
    locks' = locks ∧
      ((linesOf artifact = [] ∧ art' = []) ∨
       (claim_scan base locks (linesOf artifact) = none ∧ art' = artifact)) := by
  by_cases h1 : linesOf artifact = []
  · rw [acquire_empty h1] at h
    simp only [Prod.mk.injEq] at h
    exact ⟨h.2.2.symm, Or.inl ⟨h1, h.2.1.symm⟩⟩
  · cases hscan : claim_scan base locks (linesOf artifact) with
    | none =>
      rw [acquire_transient h1 hscan] at h
      simp only [Prod.mk.injEq] at h
      exact ⟨h.2.2.symm, Or.inr ⟨rfl, h.2.1.symm⟩⟩
    | some v =>
      obtain ⟨i, f, l⟩ := v
      rw [acquire_of_scan_some hscan] at h
      simp at h

/-- Witness for C9 (amended), at concrete inputs: single-quote wrapping of
`movies/a.mkv` is stripped, and the relative path resolves to
`/data/movies/a.mkv`. -/
theorem c9_amended_witness :
    cleanLine (String.mk (squote :: ("movies/a.mkv" : String).data ++ [squote]))
      = "movies/a.mkv" ∧
    resolve_full_path "/data" "movies/a.mkv" = "/data" ++ "/" ++ "movies/a.mkv" := by
  constructor
  · exact (c9_amended.2.1 "movies/a.mkv"
      (by intro a ha
          have hm : 'm' = a := by simpa using ha
          subst hm
          decide)
      (by intro a ha
          have hv : 'v' = a := by simpa using ha
          subst hv
          decide)).1
  · exact c9_amended.2.2.2 "/data" "movies/a.mkv" (by decide) (by decide) (by decide)

/-- C2 counterexample: the exhausted case (no non-blank line) and the
transient case (lines present but all their markers held) return the very
same value `(None, None)`; the function's return values do not distinguish
a terminal result from a transient one. -/
theorem c2_counterexample :
    (acquire_next_job_from_list "/data" [] []).1 =
      (acquire_next_job_from_list "/data" ["a.mkv"]
        ["/data/a.mkv.transcode.lock"]).1 ∧
    (acquire_next_job_from_list "/data" [] []).1 = none := by
  constructor <;> decide

/-- C2 (amended): `acquire_next_job_from_list` returns only two
distinguishable values — a claimed job with its lock handle, or `(None,
None)`.  The `(None, None)` value covers both the exhausted case (no
non-blank line; the artifact is truncated, idempotently) and the transient
all-locked case (artifact untouched); the two are distinguished by the side
effect on the artifact (and by the worker re-reading the list), not by the
returned value. -/
theorem c2_amended :
    (∀ (base : String) (artifact locks : List String),
      linesOf artifact = [] →
      acquire_next_job_from_list base artifact locks = (none, [], locks) ∧
      acquire_next_job_from_list base ([] : List String) locks = (none, [], locks))
    ∧ (∀ (base : String) (artifact locks : List String),
      linesOf artifact ≠ [] →
      (∀ rel ∈ linesOf artifact, lockPathOf (resolveLine base rel) ∈ locks) →
      acquire_next_job_from_list base artifact locks = (none, artifact, locks))
    ∧ (∀ (base : String) (artifact locks : List String) (i : Nat)
        (full lp : String),
      claim_scan base locks (linesOf artifact) = some (i, full, lp) →
      acquire_next_job_from_list base artifact locks =
        (some (full, lp), (linesOf artifact).eraseIdx i, lp :: locks)) := by
  refine ⟨?_, ?_, ?_⟩
  · intro base artifact locks h
    exact ⟨acquire_empty h, acquire_empty rfl⟩
  · intro base artifact locks h1 h2
    exact acquire_transient h1 (claim_scan_none_of_all_locked h2)
  · intro base artifact locks i full lp hscan
    exact acquire_of_scan_some hscan

/-- Witness for C2 (amended), at concrete inputs. -/
theorem c2_amended_witness :
    acquire_next_job_from_list "/data" ["  ", ""] ["x"] = (none, [], ["x"]) ∧
    acquire_next_job_from_list "/data" ["b.mkv"] ["/data/b.mkv.transcode.lock"] =
      (none, ["b.mkv"], ["/data/b.mkv.transcode.lock"]) := by
  constructor
  · exact (c2_amended.1 "/data" ["  ", ""] ["x"] (by decide)).1
  · exact c2_amended.2.1 "/data" ["b.mkv"] ["/data/b.mkv.transcode.lock"]
      (by decide)
      (by intro rel hrel
          have : rel = "b.mkv" := by
            have h := hrel
            simp only [show linesOf ["b.mkv"] = ["b.mkv"] from rfl] at h
            simpa using h
          subst this
          decide)

/-- C4 (confirmed): a successful `acquire_next_job_from_list` picks the
first line (in original order) whose item lock it can create — every
earlier line's marker already exists, the chosen one's did not — removes
exactly that line, rewrites the remaining lines in their original relative
order (`take i ++ drop (i+1)`), and returns once the new marker is part of
the marker set. -/
theorem c4_first_claimable (base : String) (artifact locks : List String)
    (full lp : String) (art' locks' : List String)
    (h : acquire_next_job_from_list base artifact locks =
      (some (full, lp), art', locks')) :
    ∃ i rel, (linesOf artifact)[i]? = some rel ∧
      full = resolveLine base rel ∧
      lp = lockPathOf full ∧
      lp ∉ locks ∧
      (∀ j, j < i → ∀ rel', (linesOf artifact)[j]? = some rel' →
        lockPathOf (resolveLine base rel') ∈ locks) ∧
      art' = (linesOf artifact).take i ++ (linesOf artifact).drop (i + 1) ∧
      locks' = lp :: locks := by
  obtain ⟨i, hscan, hart, hlocks⟩ := acquire_some_inv h
  obtain ⟨rel, hrel, hfull, hlp, hnot, hbefore⟩ := claim_scan_some_spec hscan
  exact ⟨i, rel, hrel, hfull, hlp, hnot, hbefore,
    by rw [hart, List.eraseIdx_eq_take_drop_succ], hlocks⟩

/-- Witness for C4: with the first line's marker already held, the second
line is claimed and only it is removed. -/
theorem c4_first_claimable_witness :
    ∃ i rel,
      (linesOf ["b.mkv", "a.mkv"])[i]? = some rel ∧
      "/data/a.mkv" = resolveLine "/data" rel ∧
      "/data/a.mkv.transcode.lock" = lockPathOf "/data/a.mkv" ∧
      "/data/a.mkv.transcode.lock" ∉ ["/data/b.mkv.transcode.lock"] ∧
      (∀ j, j < i → ∀ rel', (linesOf ["b.mkv", "a.mkv"])[j]? = some rel' →
        lockPathOf (resolveLine "/data" rel') ∈ ["/data/b.mkv.transcode.lock"]) ∧
      ["b.mkv"] = (linesOf ["b.mkv", "a.mkv"]).take i ++
        (linesOf ["b.mkv", "a.mkv"]).drop (i + 1) ∧
      ["/data/a.mkv.transcode.lock", "/data/b.mkv.transcode.lock"] =
        "/data/a.mkv.transcode.lock" :: ["/data/b.mkv.transcode.lock"] :=
  c4_first_claimable "/data" ["b.mkv", "a.mkv"] ["/data/b.mkv.transcode.lock"]
    "/data/a.mkv" "/data/a.mkv.transcode.lock" ["b.mkv"]
    ["/data/a.mkv.transcode.lock", "/data/b.mkv.transcode.lock"] (by decide)

/-- C8 (confirmed): when lines remain but every line's marker is already
held by another worker, `acquire_next_job_from_list` returns the transient
`(None, None)` and leaves the artifact's contents and the marker set
completely unchanged. -/
theorem c8_transient_untouched (base : String) (artifact locks : List String)
    (h1 : linesOf artifact ≠ [])
    (h2 : ∀ rel ∈ linesOf artifact, lockPathOf (resolveLine base rel) ∈ locks) :
    acquire_next_job_from_list base artifact locks = (none, artifact, locks) :=
  acquire_transient h1 (claim_scan_none_of_all_locked h2)

/-- Witness for C8: two listed paths, both markers held — artifact returned
byte-for-byte unchanged. -/
theorem c8_transient_untouched_witness :
    acquire_next_job_from_list "/data" ["a.mkv", " b.mkv "]
      ["/data/a.mkv.transcode.lock", "/data/b.mkv.transcode.lock"] =
      (none, ["a.mkv", " b.mkv "],
        ["/data/a.mkv.transcode.lock", "/data/b.mkv.transcode.lock"]) := by
  apply c8_transient_untouched
  · decide
  · intro rel hrel
    have hl : linesOf ["a.mkv", " b.mkv "] = ["a.mkv", "b.mkv"] := by decide
    rw [hl] at hrel
    have hor : rel = "a.mkv" ∨ rel = "b.mkv" := by simpa using hrel
    rcases hor with h | h <;> (subst h; decide)

/-! ### The three pipeline paths are pairwise distinct -/

theorem takeWhile_all_append (p : Char → Bool) (x r : List Char)
    (hx : ∀ c ∈ x, p c = true) :
    (x ++ r).takeWhile p = x ++ r.takeWhile p := by
  induction x with
  | nil => simp
  | cons a t ih =>
    simp only [List.cons_append, List.takeWhile_cons,
      hx a (List.mem_cons_self a t), if_true]
    rw [ih (fun c hc => hx c (List.mem_cons_of_mem a hc))]

theorem revtake_append (e x : List Char) (hx : ∀ c ∈ x, (c != '/') = true)
    (he : e = [] ∨ e.getLast? = some '/') :
    ((e ++ x).reverse.takeWhile (fun d => d != '/')) = x.reverse := by
  rw [List.reverse_append]
  have hxr : ∀ c ∈ x.reverse, (c != '/') = true := by
    intro c hc
    exact hx c (List.mem_reverse.mp hc)
  rcases he with rfl | he
  · simp only [List.reverse_nil, List.append_nil]
    exact List.takeWhile_eq_self_iff.mpr hxr
  · rw [takeWhile_all_append _ _ _ hxr]
    have hhead : e.reverse.head? = some '/' := by
      rw [List.head?_reverse]
      exact he
    cases herev : e.reverse with
    | nil => rw [herev] at hhead; simp at hhead
    | cons a t =>
      rw [herev] at hhead
      simp only [List.head?_cons, Option.some.injEq] at hhead
      subst hhead
      simp [List.takeWhile_cons]

/-- The suffix component of `tempPathOf p` contains no slash. -/
theorem temp_tail_no_slash (p : String) :
    ∀ c ∈ ("." ++ os_path_basename p ++ ".tmp.mkv").data, (c != '/') = true := by
  intro c hc
  rw [String.data_append, String.data_append] at hc
  rcases List.mem_append.mp hc with hc | hc
  · rcases List.mem_append.mp hc with hc | hc
    · have : c = '.' := by simpa using hc
      subst this
      decide
    · have hbn : c ∈ (os_path_basename p).data := hc
      unfold os_path_basename at hbn
      have hmem := List.mem_reverse.mp hbn
      have h2 := List.mem_takeWhile_imp hmem
      exact h2
  · have hor := hc
    fin_cases hor <;> decide

/-- `tempPathOf p` decomposes as `e ++ tail` with `e` empty or
slash-terminated. -/
theorem tempPathOf_decomp (p : String) :
    ∃ e : List Char,
      (tempPathOf p).data = e ++ ("." ++ os_path_basename p ++ ".tmp.mkv").data ∧
      (e = [] ∨ e.getLast? = some '/') := by
  unfold tempPathOf os_path_join
  set x := "." ++ os_path_basename p ++ ".tmp.mkv" with hx
  have hxdata : x.data =
      '.' :: ((os_path_basename p).data ++ (".tmp.mkv" : String).data) := by
    rw [hx, String.data_append, String.data_append]
    rw [show ("." : String).data = ['.'] from rfl]
    rfl
  have hhead : x.data.head? = some '.' := by
    rw [hxdata]
    rfl
  rw [if_neg (by rw [hhead]; decide)]
  by_cases hdir : os_path_dirname p = ""
  · rw [if_pos hdir]
    exact ⟨[], by simp, Or.inl rfl⟩
  · rw [if_neg hdir]
    by_cases hlast : (os_path_dirname p).data.getLast? = some '/'
    · rw [if_pos hlast]
      exact ⟨(os_path_dirname p).data, String.data_append _ _, Or.inr hlast⟩
    · rw [if_neg hlast]
      refine ⟨(os_path_dirname p ++ "/").data, ?_, Or.inr ?_⟩
      · rw [← String.data_append]
      · rw [String.data_append]
        rw [List.getLast?_concat]

theorem tempPathOf_ne_original (p : String) : tempPathOf p ≠ p := by
  intro h
  obtain ⟨e, hdecomp, he⟩ := tempPathOf_decomp p
  have hd : (tempPathOf p).data = p.data := congrArg String.data h
  rw [hdecomp] at hd
  have hrev := congrArg
    (fun l => (List.takeWhile (fun d => d != '/') l.reverse).length) hd
  simp only at hrev
  rw [revtake_append e _ (temp_tail_no_slash p) he] at hrev
  rw [List.length_reverse] at hrev
  have hlenx : ("." ++ os_path_basename p ++ ".tmp.mkv").data.length =
      (os_path_basename p).data.length + 9 := by
    rw [String.data_append, String.data_append]
    simp [List.length_append]
  have hbn : (os_path_basename p).data.length =
      (List.takeWhile (fun d => d != '/') p.data.reverse).length := by
    unfold os_path_basename
    simp
  omega

theorem backupPathOf_ne_original (p : String) : backupPathOf p ≠ p := by
  intro h
  have hd : (backupPathOf p).data = p.data := congrArg String.data h
  unfold backupPathOf at hd
  rw [String.data_append] at hd
  have hlen := congrArg List.length hd
  rw [List.length_append] at hlen
  have h4 : (".old" : String).data.length = 4 := rfl
  rw [h4] at hlen
  omega

theorem tempPathOf_ne_backup (p : String) : tempPathOf p ≠ backupPathOf p := by
  intro h
  obtain ⟨e, hdecomp, _⟩ := tempPathOf_decomp p
  have hd : (tempPathOf p).data = (backupPathOf p).data := congrArg String.data h
  rw [hdecomp] at hd
  have hlast := congrArg List.getLast? hd
  have hv : (e ++ ("." ++ os_path_basename p ++ ".tmp.mkv").data).getLast? =
      some 'v' := by
    rw [List.getLast?_append]
    have hlx : ("." ++ os_path_basename p ++ ".tmp.mkv").data.getLast? =
        some 'v' := by
      rw [String.data_append, List.getLast?_append]
      rfl
    rw [hlx]
    rfl
  have hdlast : (backupPathOf p).data.getLast? = some 'd' := by
    unfold backupPathOf
    rw [String.data_append, List.getLast?_append]
    rfl
  rw [hv, hdlast] at hlast
  simp at hlast

/-! ### Filesystem model lemmas -/

theorem fsLookup_fsErase_self (fs : FS) (p : String) :
    fsLookup (fsErase fs p) p = none := by
  induction fs with
  | nil => rfl
  | cons e rest ih =>
    obtain ⟨q, c⟩ := e
    by_cases h : q = p
    · simp only [fsErase, List.filter_cons] at ih ⊢
      simpa [h] using ih
    · simp only [fsErase, List.filter_cons] at ih ⊢
      simpa [fsLookup, h] using ih

theorem fsLookup_fsErase_ne (fs : FS) {p q : String} (h : q ≠ p) :
    fsLookup (fsErase fs p) q = fsLookup fs q := by
  induction fs with
  | nil => rfl
  | cons e rest ih =>
    obtain ⟨a, c⟩ := e
    by_cases ha : a = p
    · have hpq : ¬ p = q := fun hh => h hh.symm
      simp only [fsErase, List.filter_cons] at ih ⊢
      simp [fsLookup, ha, hpq] at ih ⊢
      exact ih
    · by_cases haq : a = q
      · simp only [fsErase, List.filter_cons] at ih ⊢
        simp [fsLookup, ha, haq, h]
      · simp only [fsErase, List.filter_cons] at ih ⊢
        simp [fsLookup, ha, haq] at ih ⊢
        exact ih

theorem fsLookup_fsWrite_self (fs : FS) (p : String) (c : Nat) :
    fsLookup (fsWrite fs p c) p = some c := by
  simp [fsWrite, fsLookup]

theorem fsLookup_fsWrite_ne (fs : FS) {p q : String} (c : Nat) (h : q ≠ p) :
    fsLookup (fsWrite fs p c) q = fsLookup fs q := by
  simp only [fsWrite, fsLookup]
  rw [if_neg (fun hh => h hh.symm)]
  exact fsLookup_fsErase_ne fs h

theorem os_rename_eval {fs : FS} {src : String} {c : Nat} (dst : String)
    (h : fsLookup fs src = some c) :
    os_rename fs src dst = some (fsWrite (fsErase fs src) dst c) := by
  simp [os_rename, h]

theorem os_remove_eval {fs : FS} {p : String} {c : Nat}
    (h : fsLookup fs p = some c) :
    os_remove fs p = some (fsErase fs p) := by
  simp [os_remove, h]

theorem os_path_isfile_true {fs : FS} {p : String} {c : Nat}
    (h : fsLookup fs p = some c) : os_path_isfile fs p = true := by
  simp [os_path_isfile, h]

theorem os_path_isfile_false {fs : FS} {p : String}
    (h : fsLookup fs p = none) : os_path_isfile fs p = false := by
  simp [os_path_isfile, h]

theorem get_video_codec_ok {env : Env} {out codec : String}
    (hprobe : env.probe = ProbeBeh.ok out)
    (hcodec : pyLower (pyStripWS out) = codec)
    (hne : codec ≠ "") :
    get_video_codec env = Except.ok (some codec) := by
  simp [get_video_codec, hprobe, hcodec, hne]

theorem mem_inefficient_ne_empty : ∀ c ∈ inefficient_codecs, c ≠ "" := by
  decide

/-- Evaluation of the rollback branch: when the encode step fails after the
backup rename, `transcode_file` restores the original bytes at the original
path, removes the temporary output and the backup, returns `False`, and the
worker appends the job's relative path to the failure log. -/
theorem transcode_encode_fail_spec (env : Env) (fs : FS) (p out codec : String)
    (origBytes : Nat) (tmpOut : Option Nat)
    (h0 : fsLookup fs p = some origBytes)
    (hprobe : env.probe = ProbeBeh.ok out)
    (hcodec : pyLower (pyStripWS out) = codec)
    (hin : codec ∈ inefficient_codecs)
    (hbk : env.backupRenameEnvFail = false)
    (henc : env.encode = EncodeBeh.fail tmpOut) :
    ∃ fs4 : FS,
      transcode_file env fs p = Except.ok (false, fs4) ∧
      fsLookup fs4 p = some origBytes ∧
      fsLookup fs4 (tempPathOf p) = none ∧
      fsLookup fs4 (backupPathOf p) = none ∧
      ∀ (failLog locks : List String) (base lp : String),
        worker_process_claimed env fs failLog locks base p lp =
          (WorkerResult.done false fs4 (log_failure failLog (relPathOf base p)),
           release_item_lock locks (some lp)) := by
  have htp : tempPathOf p ≠ p := tempPathOf_ne_original p
  have hbp : backupPathOf p ≠ p := backupPathOf_ne_original p
  have htb : tempPathOf p ≠ backupPathOf p := tempPathOf_ne_backup p
  have hfile : os_path_isfile fs p = true := os_path_isfile_true h0
  have hgcv : get_video_codec env = Except.ok (some codec) :=
    get_video_codec_ok hprobe hcodec (mem_inefficient_ne_empty codec hin)
  have hrn1 : os_rename fs p (backupPathOf p) =
      some (fsWrite (fsErase fs p) (backupPathOf p) origBytes) :=
    os_rename_eval _ h0
  cases tmpOut with
  | some c =>
    -- a leftover temporary output exists: it is removed during rollback
    have hlkb2 : fsLookup
        (fsWrite (fsWrite (fsErase fs p) (backupPathOf p) origBytes)
          (tempPathOf p) c) (backupPathOf p) = some origBytes := by
      rw [fsLookup_fsWrite_ne _ _ (Ne.symm htb)]
      exact fsLookup_fsWrite_self _ _ _
    have hrn2 : os_rename
        (fsWrite (fsWrite (fsErase fs p) (backupPathOf p) origBytes)
          (tempPathOf p) c) (backupPathOf p) p =
        some (fsWrite (fsErase
          (fsWrite (fsWrite (fsErase fs p) (backupPathOf p) origBytes)
            (tempPathOf p) c) (backupPathOf p)) p origBytes) :=
      os_rename_eval _ hlkb2
    have hlkt3 : fsLookup
        (fsWrite (fsErase
          (fsWrite (fsWrite (fsErase fs p) (backupPathOf p) origBytes)
            (tempPathOf p) c) (backupPathOf p)) p origBytes)
        (tempPathOf p) = some c := by
      rw [fsLookup_fsWrite_ne _ _ htp, fsLookup_fsErase_ne _ htb,
        fsLookup_fsWrite_self]
    have hrm : os_remove
        (fsWrite (fsErase
          (fsWrite (fsWrite (fsErase fs p) (backupPathOf p) origBytes)
            (tempPathOf p) c) (backupPathOf p)) p origBytes)
        (tempPathOf p) =
        some (fsErase
          (fsWrite (fsErase
            (fsWrite (fsWrite (fsErase fs p) (backupPathOf p) origBytes)
              (tempPathOf p) c) (backupPathOf p)) p origBytes)
          (tempPathOf p)) :=
      os_remove_eval hlkt3
    have htf : transcode_file env fs p = Except.ok (false,
        fsErase
          (fsWrite (fsErase
            (fsWrite (fsWrite (fsErase fs p) (backupPathOf p) origBytes)
              (tempPathOf p) c) (backupPathOf p)) p origBytes)
          (tempPathOf p)) := by
      simp [transcode_file, hfile, hgcv, hbk, henc, hrn1, hin,
        os_path_isfile_true hlkb2, hrn2, os_path_isfile_true hlkt3, hrm]
    refine ⟨_, htf, ?_, ?_, ?_, ?_⟩
    · rw [fsLookup_fsErase_ne _ (Ne.symm htp), fsLookup_fsWrite_self]
    · exact fsLookup_fsErase_self _ _
    · rw [fsLookup_fsErase_ne _ (fun hh => htb hh.symm),
        fsLookup_fsWrite_ne _ _ hbp, fsLookup_fsErase_self]
    · intro failLog locks base lp
      simp [worker_process_claimed, htf]
  | none =>
    have hlkb2 : fsLookup (fsWrite (fsErase fs p) (backupPathOf p) origBytes)
        (backupPathOf p) = some origBytes := fsLookup_fsWrite_self _ _ _
    have hrn2 : os_rename (fsWrite (fsErase fs p) (backupPathOf p) origBytes)
        (backupPathOf p) p =
        some (fsWrite (fsErase
          (fsWrite (fsErase fs p) (backupPathOf p) origBytes)
          (backupPathOf p)) p origBytes) :=
      os_rename_eval _ hlkb2
    have hlkt3 : fsLookup
        (fsWrite (fsErase
          (fsWrite (fsErase fs p) (backupPathOf p) origBytes)
          (backupPathOf p)) p origBytes) (tempPathOf p) =
        fsLookup fs (tempPathOf p) := by
      rw [fsLookup_fsWrite_ne _ _ htp, fsLookup_fsErase_ne _ htb,
        fsLookup_fsWrite_ne _ _ htb, fsLookup_fsErase_ne _ htp]
    cases hstale : fsLookup fs (tempPathOf p) with
    | none =>
      have hlkt3n : fsLookup
          (fsWrite (fsErase
            (fsWrite (fsErase fs p) (backupPathOf p) origBytes)
            (backupPathOf p)) p origBytes) (tempPathOf p) = none := by
        rw [hlkt3, hstale]
      have htf : transcode_file env fs p = Except.ok (false,
          fsWrite (fsErase
            (fsWrite (fsErase fs p) (backupPathOf p) origBytes)
            (backupPathOf p)) p origBytes) := by
        simp [transcode_file, hfile, hgcv, hbk, henc, hrn1, hin,
          os_path_isfile_true hlkb2, hrn2, os_path_isfile_false hlkt3n]
      refine ⟨_, htf, ?_, ?_, ?_, ?_⟩
      · rw [fsLookup_fsWrite_self]
      · exact hlkt3n
      · rw [fsLookup_fsWrite_ne _ _ hbp, fsLookup_fsErase_self]
      · intro failLog locks base lp
        simp [worker_process_claimed, htf]
    | some cStale =>
      have hlkt3s : fsLookup
          (fsWrite (fsErase
            (fsWrite (fsErase fs p) (backupPathOf p) origBytes)
            (backupPathOf p)) p origBytes) (tempPathOf p) = some cStale := by
        rw [hlkt3, hstale]
      have hrm : os_remove
          (fsWrite (fsErase
            (fsWrite (fsErase fs p) (backupPathOf p) origBytes)
            (backupPathOf p)) p origBytes) (tempPathOf p) =
          some (fsErase
            (fsWrite (fsErase
              (fsWrite (fsErase fs p) (backupPathOf p) origBytes)
              (backupPathOf p)) p origBytes) (tempPathOf p)) :=
        os_remove_eval hlkt3s
      have htf : transcode_file env fs p = Except.ok (false,
          fsErase
            (fsWrite (fsErase
              (fsWrite (fsErase fs p) (backupPathOf p) origBytes)
              (backupPathOf p)) p origBytes) (tempPathOf p)) := by
        simp [transcode_file, hfile, hgcv, hbk, henc, hrn1, hin,
          os_path_isfile_true hlkb2, hrn2, os_path_isfile_true hlkt3s, hrm]
      refine ⟨_, htf, ?_, ?_, ?_, ?_⟩
      · rw [fsLookup_fsErase_ne _ (Ne.symm htp), fsLookup_fsWrite_self]
      · exact fsLookup_fsErase_self _ _
      · rw [fsLookup_fsErase_ne _ (fun hh => htb hh.symm),
          fsLookup_fsWrite_ne _ _ hbp, fsLookup_fsErase_self]
      · intro failLog locks base lp
        simp [worker_process_claimed, htf]

/-- C3 (confirmed): if the encode step fails for a claimed job after the
backup rename succeeded, the pipeline renames the backup back to the
original path (the backup exists at that point) and deletes the temporary
output when it exists, so that afterwards the file at the original path has
its original bytes and no temporary output remains; the outcome is `False`
(Failed) and the worker logs the job's relative path. -/
theorem c3_encode_failure_rollback (env : Env) (fs : FS) (p out codec : String)
    (origBytes : Nat) (tmpOut : Option Nat)
    (h0 : fsLookup fs p = some origBytes)
    (hprobe : env.probe = ProbeBeh.ok out)
    (hcodec : pyLower (pyStripWS out) = codec)
    (hin : codec ∈ inefficient_codecs)
    (hbk : env.backupRenameEnvFail = false)
    (henc : env.encode = EncodeBeh.fail tmpOut) :
    ∃ fs4 : FS,
      transcode_file env fs p = Except.ok (false, fs4) ∧
      fsLookup fs4 p = some origBytes ∧
      fsLookup fs4 (tempPathOf p) = none ∧
      fsLookup fs4 (backupPathOf p) = none ∧
      ∀ (failLog locks : List String) (base lp : String),
        worker_process_claimed env fs failLog locks base p lp =
          (WorkerResult.done false fs4 (log_failure failLog (relPathOf base p)),
           release_item_lock locks (some lp)) :=
  transcode_encode_fail_spec env fs p out codec origBytes tmpOut
    h0 hprobe hcodec hin hbk henc

/-- Witness for C3 at a concrete input: file `/data/a.mkv` with bytes `7`,
probe reports `h264`, encode fails leaving a partial temporary output `3`;
the original bytes are restored, no temporary output or backup remains, and
the worker logs `a.mkv`. -/
theorem c3_encode_failure_rollback_witness :
    transcode_file ⟨ProbeBeh.ok "h264", EncodeBeh.fail (some 3), false⟩
      [("/data/a.mkv", 7)] "/data/a.mkv" =
      Except.ok (false, [("/data/a.mkv", 7)]) ∧
    fsLookup [("/data/a.mkv", 7)] "/data/a.mkv" = some 7 ∧
    fsLookup [("/data/a.mkv", 7)] (tempPathOf "/data/a.mkv") = none ∧
    fsLookup [("/data/a.mkv", 7)] (backupPathOf "/data/a.mkv") = none ∧
    worker_process_claimed ⟨ProbeBeh.ok "h264", EncodeBeh.fail (some 3), false⟩
      [("/data/a.mkv", 7)] [] ["/data/a.mkv.transcode.lock"] "/data"
      "/data/a.mkv" "/data/a.mkv.transcode.lock" =
      (WorkerResult.done false [("/data/a.mkv", 7)] ["a.mkv"], []) := by
  obtain ⟨fs4, h1, h2, h3, h4, h5⟩ :=
    c3_encode_failure_rollback
      ⟨ProbeBeh.ok "h264", EncodeBeh.fail (some 3), false⟩
      [("/data/a.mkv", 7)] "/data/a.mkv" "h264" "h264" 7 (some 3)
      (by decide) rfl (by decide) (by decide) rfl rfl
  have hcalc : transcode_file
      ⟨ProbeBeh.ok "h264", EncodeBeh.fail (some 3), false⟩
      [("/data/a.mkv", 7)] "/data/a.mkv" =
      Except.ok (false, [("/data/a.mkv", 7)]) := by rfl
  have hfs4 : fs4 = [("/data/a.mkv", 7)] := by
    have hh := h1.symm.trans hcalc
    simpa using hh
  subst hfs4
  refine ⟨h1, h2, h3, h4, ?_⟩
  have h5c := h5 [] ["/data/a.mkv.transcode.lock"] "/data"
    "/data/a.mkv.transcode.lock"
  rw [h5c]
  decide

/-- C7 (confirmed): a claimed job whose detected codec is not in the
configured inefficient set is skipped: the outcome is `True` (counts as
success), the filesystem is completely unchanged (no rename or other
mutation), and the worker leaves the failure log untouched. -/
theorem c7_skip_no_mutation (env : Env) (fs : FS) (p out codec : String)
    (hfile : os_path_isfile fs p = true)
    (hprobe : env.probe = ProbeBeh.ok out)
    (hcodec : pyLower (pyStripWS out) = codec)
    (hne : codec ≠ "")
    (hnotin : codec ∉ inefficient_codecs) :
    transcode_file env fs p = Except.ok (true, fs) ∧
    ∀ (failLog locks : List String) (base lp : String),
      worker_process_claimed env fs failLog locks base p lp =
        (WorkerResult.done true fs failLog, release_item_lock locks (some lp)) := by
  have hgcv := get_video_codec_ok hprobe hcodec hne
  have htf : transcode_file env fs p = Except.ok (true, fs) := by
    simp [transcode_file, hfile, hgcv, hnotin]
  exact ⟨htf, fun failLog locks base lp => by simp [worker_process_claimed, htf]⟩

/-- Witness for C7: codec `hevc` is not inefficient — file untouched, log
untouched, lock released. -/
theorem c7_skip_no_mutation_witness :
    transcode_file ⟨ProbeBeh.ok "hevc", EncodeBeh.ok 0, false⟩
      [("/data/a.mkv", 7)] "/data/a.mkv" =
      Except.ok (true, [("/data/a.mkv", 7)]) ∧
    worker_process_claimed ⟨ProbeBeh.ok "hevc", EncodeBeh.ok 0, false⟩
      [("/data/a.mkv", 7)] [] ["/data/a.mkv.transcode.lock"] "/data"
      "/data/a.mkv" "/data/a.mkv.transcode.lock" =
      (WorkerResult.done true [("/data/a.mkv", 7)] [], []) := by
  have h := c7_skip_no_mutation ⟨ProbeBeh.ok "hevc", EncodeBeh.ok 0, false⟩
    [("/data/a.mkv", 7)] "/data/a.mkv" "hevc" "hevc"
    (by decide) rfl (by decide) (by decide) (by decide)
  refine ⟨h.1, ?_⟩
  have h2 := h.2 [] ["/data/a.mkv.transcode.lock"] "/data"
    "/data/a.mkv.transcode.lock"
  rw [h2]
  decide

/-- C10 (confirmed): when the claimed job's resolved path is not an existing
regular file, `transcode_file` returns `False` immediately with the
filesystem unchanged, for every oracle behaviour — in particular even when
running the probe would raise — so the probe is never consulted and no
rename happens; the worker then appends the job's relative path to the
failure log. -/
theorem c10_missing_file (env : Env) (fs : FS) (p : String)
    (h : fsLookup fs p = none) :
    transcode_file env fs p = Except.ok (false, fs) ∧
    ∀ (failLog locks : List String) (base lp : String),
      worker_process_claimed env fs failLog locks base p lp =
        (WorkerResult.done false fs (log_failure failLog (relPathOf base p)),
         release_item_lock locks (some lp)) := by
  have hfile : os_path_isfile fs p = false := os_path_isfile_false h
  have htf : transcode_file env fs p = Except.ok (false, fs) := by
    simp [transcode_file, hfile]
  exact ⟨htf, fun failLog locks base lp => by simp [worker_process_claimed, htf]⟩

/-- Witness for C10: missing file, with an oracle whose probe and encode
would both raise — still a plain `False` outcome and a log entry. -/
theorem c10_missing_file_witness :
    transcode_file ⟨ProbeBeh.osErr, EncodeBeh.osErr, true⟩ []
      "/data/missing.mkv" = Except.ok (false, []) ∧
    worker_process_claimed ⟨ProbeBeh.osErr, EncodeBeh.osErr, true⟩ [] []
      ["/data/missing.mkv.transcode.lock"] "/data" "/data/missing.mkv"
      "/data/missing.mkv.transcode.lock" =
      (WorkerResult.done false [] ["missing.mkv"], []) := by
  have h := c10_missing_file ⟨ProbeBeh.osErr, EncodeBeh.osErr, true⟩ []
    "/data/missing.mkv" (by decide)
  refine ⟨h.1, ?_⟩
  have h2 := h.2 [] ["/data/missing.mkv.transcode.lock"] "/data"
    "/data/missing.mkv.transcode.lock"
  rw [h2]
  decide

/-- C5 counterexample: a per-item failure that is not caught.  When the
probe invocation raises anything other than `CalledProcessError` (for
example `FileNotFoundError` because the ffprobe binary is missing), the
exception escapes `transcode_file` — `get_video_codec` only catches
`CalledProcessError` — and `worker` has only `try/finally`, so no outcome
is recorded and the worker thread terminates (the lock is still released by
the `finally` block). -/
theorem c5_counterexample :
    worker_process_claimed ⟨ProbeBeh.osErr, EncodeBeh.ok 0, false⟩
      [("/data/a.mkv", 7)] [] ["/data/a.mkv.transcode.lock"]
      "/data" "/data/a.mkv" "/data/a.mkv.transcode.lock" =
      (WorkerResult.crashed [("/data/a.mkv", 7)] [], []) := by
  decide

/-- C5 (amended): the failures the code's handlers cover — a missing file,
a probe reported via `CalledProcessError` or empty probe output, a
backup-rename failure, and an encode failure reported via
`CalledProcessError` (with best-effort rollback) — are all converted into a
`True`/`False` outcome at the pipeline boundary, the worker records `False`
outcomes in the failure log, and the item lock is released; but this only
holds when neither external invocation raises outside
`CalledProcessError` — such an exception escapes and terminates the worker
thread (see the counterexample). -/
theorem c5_amended (env : Env) (fs : FS) (p : String)
    (hprobe : env.probe ≠ ProbeBeh.osErr)
    (henc : env.encode ≠ EncodeBeh.osErr) :
    ∃ (ok : Bool) (fs1 : FS),
      transcode_file env fs p = Except.ok (ok, fs1) ∧
      ∀ (failLog locks : List String) (base lp : String),
        worker_process_claimed env fs failLog locks base p lp =
          (WorkerResult.done ok fs1
            (if ok then failLog else log_failure failLog (relPathOf base p)),
           release_item_lock locks (some lp)) := by
  suffices h : ∃ (ok : Bool) (fs1 : FS),
      transcode_file env fs p = Except.ok (ok, fs1) by
    obtain ⟨ok, fs1, htf⟩ := h
    refine ⟨ok, fs1, htf, ?_⟩
    intro failLog locks base lp
    cases ok <;> simp [worker_process_claimed, htf]
  by_cases hfile : os_path_isfile fs p = true
  case neg =>
    have hfalse : os_path_isfile fs p = false := by
      cases hh : os_path_isfile fs p
      · rfl
      · exact absurd hh hfile
    exact ⟨false, fs, by simp [transcode_file, hfalse]⟩
  case pos =>
    obtain ⟨c0, hc0⟩ : ∃ c, fsLookup fs p = some c := by
      cases hh : fsLookup fs p with
      | none => rw [os_path_isfile_false hh] at hfile; exact absurd hfile (by simp)
      | some c => exact ⟨c, rfl⟩
    cases hpr : env.probe with
    | osErr => exact absurd hpr hprobe
    | procErr =>
      exact ⟨false, fs, by simp [transcode_file, hfile, get_video_codec, hpr]⟩
    | ok out =>
      by_cases hempty : pyLower (pyStripWS out) = ""
      · have hgcv : get_video_codec env = Except.ok none := by
          simp [get_video_codec, hpr, hempty]
        exact ⟨false, fs, by simp [transcode_file, hfile, hgcv]⟩
      · have hgcv : get_video_codec env =
            Except.ok (some (pyLower (pyStripWS out))) := by
          simp [get_video_codec, hpr, hempty]
        by_cases hin : pyLower (pyStripWS out) ∈ inefficient_codecs
        case neg =>
          exact ⟨true, fs, by simp [transcode_file, hfile, hgcv, hin]⟩
        case pos =>
          by_cases hbk : env.backupRenameEnvFail = true
          · exact ⟨false, fs, by simp [transcode_file, hfile, hgcv, hin, hbk]⟩
          · have hbkf : env.backupRenameEnvFail = false := by
              cases hh : env.backupRenameEnvFail
              · rfl
              · exact absurd hh hbk
            have hrn1 : os_rename fs p (backupPathOf p) =
                some (fsWrite (fsErase fs p) (backupPathOf p) c0) :=
              os_rename_eval _ hc0
            cases hen : env.encode with
            | osErr => exact absurd hen henc
            | fail tmpOut =>
              obtain ⟨fs4, htf, _, _, _, _⟩ :=
                transcode_encode_fail_spec env fs p out
                  (pyLower (pyStripWS out)) c0 tmpOut hc0 hpr rfl hin hbkf hen
              exact ⟨false, fs4, htf⟩
            | ok newBytes =>
              have htp : tempPathOf p ≠ p := tempPathOf_ne_original p
              have hbp : backupPathOf p ≠ p := backupPathOf_ne_original p
              have htb : tempPathOf p ≠ backupPathOf p := tempPathOf_ne_backup p
              have hlk2 : fsLookup
                  (fsWrite (fsWrite (fsErase fs p) (backupPathOf p) c0)
                    (tempPathOf p) newBytes) (tempPathOf p) = some newBytes :=
                fsLookup_fsWrite_self _ _ _
              have hrn2 : os_rename
                  (fsWrite (fsWrite (fsErase fs p) (backupPathOf p) c0)
                    (tempPathOf p) newBytes) (tempPathOf p) p =
                  some (fsWrite (fsErase
                    (fsWrite (fsWrite (fsErase fs p) (backupPathOf p) c0)
                      (tempPathOf p) newBytes) (tempPathOf p)) p newBytes) :=
                os_rename_eval _ hlk2
              have hlkb3 : fsLookup
                  (fsWrite (fsErase
                    (fsWrite (fsWrite (fsErase fs p) (backupPathOf p) c0)
                      (tempPathOf p) newBytes) (tempPathOf p)) p newBytes)
                  (backupPathOf p) = some c0 := by
                rw [fsLookup_fsWrite_ne _ _ hbp,
                  fsLookup_fsErase_ne _ (Ne.symm htb),
                  fsLookup_fsWrite_ne _ _ (Ne.symm htb),
                  fsLookup_fsWrite_self]
              have hrm : os_remove
                  (fsWrite (fsErase
                    (fsWrite (fsWrite (fsErase fs p) (backupPathOf p) c0)
                      (tempPathOf p) newBytes) (tempPathOf p)) p newBytes)
                  (backupPathOf p) =
                  some (fsErase
                    (fsWrite (fsErase
                      (fsWrite (fsWrite (fsErase fs p) (backupPathOf p) c0)
                        (tempPathOf p) newBytes) (tempPathOf p)) p newBytes)
                    (backupPathOf p)) :=
                os_remove_eval hlkb3
              refine ⟨true, fsErase
                (fsWrite (fsErase
                  (fsWrite (fsWrite (fsErase fs p) (backupPathOf p) c0)
                    (tempPathOf p) newBytes) (tempPathOf p)) p newBytes)
                (backupPathOf p), ?_⟩
              simp [transcode_file, hfile, hgcv, hin, hbkf, hrn1, hen,
                hrn2, hrm]

/-- Witness for C5 (amended): a successful end-to-end transcode of an
`h264` file — the pipeline commits and the worker records no failure. -/
theorem c5_amended_witness :
    transcode_file ⟨ProbeBeh.ok "h264", EncodeBeh.ok 5, false⟩
      [("/data/a.mkv", 7)] "/data/a.mkv" =
      Except.ok (true, [("/data/a.mkv", 5)]) ∧
    worker_process_claimed ⟨ProbeBeh.ok "h264", EncodeBeh.ok 5, false⟩
      [("/data/a.mkv", 7)] [] ["/data/a.mkv.transcode.lock"] "/data"
      "/data/a.mkv" "/data/a.mkv.transcode.lock" =
      (WorkerResult.done true [("/data/a.mkv", 5)] [], []) := by
  obtain ⟨ok, fs1, htf, hw⟩ :=
    c5_amended ⟨ProbeBeh.ok "h264", EncodeBeh.ok 5, false⟩
      [("/data/a.mkv", 7)] "/data/a.mkv" (by decide) (by decide)
  have hcalc : transcode_file ⟨ProbeBeh.ok "h264", EncodeBeh.ok 5, false⟩
      [("/data/a.mkv", 7)] "/data/a.mkv" =
      Except.ok (true, [("/data/a.mkv", 5)]) := by rfl
  have hok : ok = true ∧ fs1 = [("/data/a.mkv", 5)] := by
    have hh := htf.symm.trans hcalc
    simpa using hh
  obtain ⟨rfl, rfl⟩ := hok
  refine ⟨hcalc, ?_⟩
  have hw2 := hw [] ["/data/a.mkv.transcode.lock"] "/data"
    "/data/a.mkv.transcode.lock"
  rw [hw2]
  decide

/-! ### Supporting lemmas for the worker-pool invariant -/

theorem dropWhile_idem (p : Char → Bool) (l : List Char) :
    (l.dropWhile p).dropWhile p = l.dropWhile p :=
  dropWhile_head_false (fun a ha => head?_dropWhile_false _ a ha)

theorem head?_append_of_head? {X t : List Char} {a : Char}
    (h : X.head? = some a) : (X ++ t).head? = some a := by
  cases X with
  | nil => simp at h
  | cons b s => simpa using h

theorem dropWhileEnd_head {p : Char → Bool} {l : List Char} {a : Char}
    (h : (dropWhileEnd p l).head? = some a) : l.head? = some a := by
  obtain ⟨t, ht⟩ : ∃ t, dropWhileEnd p l ++ t = l := by
    obtain ⟨u, hu⟩ : ∃ u, u ++ l.reverse.dropWhile p = l.reverse :=
      (List.dropWhile_suffix p)
    refine ⟨u.reverse, ?_⟩
    have := congrArg List.reverse hu
    rw [List.reverse_append] at this
    simpa [dropWhileEnd] using this
  rw [← ht]
  exact head?_append_of_head? h

theorem pyStripWS_idem (s : String) : pyStripWS (pyStripWS s) = pyStripWS s := by
  show pyStripWS (String.mk (dropWhileEnd Char.isWhitespace
    (s.data.dropWhile Char.isWhitespace))) = _
  unfold pyStripWS
  have h1 : (dropWhileEnd Char.isWhitespace
      (s.data.dropWhile Char.isWhitespace)).dropWhile Char.isWhitespace =
      dropWhileEnd Char.isWhitespace (s.data.dropWhile Char.isWhitespace) := by
    apply dropWhile_head_false
    intro a ha
    exact head?_dropWhile_false _ a (dropWhileEnd_head ha)
  show String.mk (dropWhileEnd _ (List.dropWhile _ _)) = _
  rw [h1]
  unfold dropWhileEnd
  rw [List.reverse_reverse, dropWhile_idem]

theorem mem_linesOf {artifact : List String} {s : String}
    (h : s ∈ linesOf artifact) : pyStripWS s = s ∧ s ≠ "" := by
  unfold linesOf at h
  have h1 := List.mem_of_mem_filter h
  have h2 := List.of_mem_filter h
  obtain ⟨t, _, ht⟩ := List.mem_map.mp h1
  constructor
  · rw [← ht]
    exact pyStripWS_idem t
  · simpa using h2

theorem linesOf_fix {l : List String}
    (h : ∀ s ∈ l, pyStripWS s = s ∧ s ≠ "") : linesOf l = l := by
  unfold linesOf
  have hmap : l.map pyStripWS = l := by
    induction l with
    | nil => rfl
    | cons a t ih =>
      simp only [List.map_cons]
      rw [(h a (List.mem_cons_self a t)).1,
        ih (fun s hs => h s (List.mem_cons_of_mem a hs))]
  rw [hmap]
  apply List.filter_eq_self.mpr
  intro a ha
  simpa using (h a ha).2

theorem linesOf_eraseIdx (artifact : List String) (i : Nat) :
    linesOf ((linesOf artifact).eraseIdx i) = (linesOf artifact).eraseIdx i := by
  apply linesOf_fix
  intro s hs
  exact mem_linesOf ((List.eraseIdx_sublist _ i).subset hs)

theorem coe_cons_eraseIdx {α : Type} [DecidableEq α] :
    ∀ (l : List α) (i : Nat) (a : α), l[i]? = some a →
    (l : Multiset α) = a ::ₘ (l.eraseIdx i : Multiset α) := by
  intro l
  induction l with
  | nil => intro i a h; simp at h
  | cons b t ih =>
    intro i a h
    cases i with
    | zero =>
      simp only [List.getElem?_cons_zero, Option.some.injEq] at h
      subst h
      rfl
    | succ j =>
      rw [List.getElem?_cons_succ] at h
      have hperm := ih j a h
      show ((b :: t : List α) : Multiset α) =
        a ::ₘ ((b :: t.eraseIdx j : List α) : Multiset α)
      rw [← Multiset.cons_coe, ← Multiset.cons_coe, hperm]
      exact (Multiset.cons_swap b a _)

theorem inFlight_set_finish :
    ∀ (phases : List WPhase) (w : Nat) (f l : String),
    phases[w]? = some (WPhase.claimed f l) →
    (inFlightOf phases : Multiset String) =
      f ::ₘ (inFlightOf (phases.set w WPhase.idle) : Multiset String) := by
  intro phases
  induction phases with
  | nil => intro w f l h; simp at h
  | cons ph rest ih =>
    intro w f l h
    cases w with
    | zero =>
      simp only [List.getElem?_cons_zero, Option.some.injEq] at h
      subst h
      simp [inFlightOf]
    | succ w' =>
      rw [List.getElem?_cons_succ] at h
      have hih := ih w' f l h
      show (inFlightOf (ph :: rest) : Multiset String) =
        f ::ₘ (inFlightOf (ph :: rest.set w' WPhase.idle) : Multiset String)
      cases ph with
      | idle =>
        simpa [inFlightOf] using hih
      | claimed g m =>
        simp only [inFlightOf, List.filterMap_cons] at hih ⊢
        rw [← Multiset.cons_coe, ← Multiset.cons_coe, hih]
        exact Multiset.cons_swap g f _

theorem inFlight_set_claim :
    ∀ (phases : List WPhase) (w : Nat) (f l : String),
    phases[w]? = some WPhase.idle →
    (inFlightOf (phases.set w (WPhase.claimed f l)) : Multiset String) =
      f ::ₘ (inFlightOf phases : Multiset String) := by
  intro phases
  induction phases with
  | nil => intro w f l h; simp at h
  | cons ph rest ih =>
    intro w f l h
    cases w with
    | zero =>
      simp only [List.getElem?_cons_zero, Option.some.injEq] at h
      subst h
      simp [inFlightOf]
    | succ w' =>
      rw [List.getElem?_cons_succ] at h
      have hih := ih w' f l h
      show (inFlightOf (ph :: rest.set w' (WPhase.claimed f l)) : Multiset String)
        = f ::ₘ (inFlightOf (ph :: rest) : Multiset String)
      cases ph with
      | idle =>
        simpa [inFlightOf] using hih
      | claimed g m =>
        simp only [inFlightOf, List.filterMap_cons] at hih ⊢
        rw [← Multiset.cons_coe, ← Multiset.cons_coe, hih]
        exact (Multiset.cons_swap f g _).symm

theorem inFlight_nil_of_all_idle {phases : List WPhase}
    (h : ∀ ph ∈ phases, ph = WPhase.idle) : inFlightOf phases = [] := by
  induction phases with
  | nil => rfl
  | cons ph rest ih =>
    have hph := h ph (List.mem_cons_self ph rest)
    subst hph
    simp only [inFlightOf, List.filterMap_cons]
    exact ih (fun q hq => h q (List.mem_cons_of_mem _ hq))

theorem lockPathOf_inj : Function.Injective lockPathOf := by
  intro a b h
  have hd := congrArg String.data h
  unfold lockPathOf at hd
  rw [String.data_append, String.data_append] at hd
  exact String.ext (List.append_cancel_right hd)

theorem release_not_mem (locks : List String) (lp : String) (h : lp ∉ locks) :
    release_item_lock locks (some lp) = locks := by
  simp only [release_item_lock]
  apply List.filter_eq_self.mpr
  intro a ha
  have hne : a ≠ lp := fun he => h (he ▸ ha)
  simpa using hne

theorem release_eq_erase (locks : List String) (lp : String)
    (h : locks.Nodup) : release_item_lock locks (some lp) = locks.erase lp := by
  induction locks with
  | nil => rfl
  | cons a t ih =>
    by_cases hal : a = lp
    · subst hal
      simp only [release_item_lock, List.filter_cons]
      rw [if_neg (by simp)]
      have hnot : a ∉ t := (List.nodup_cons.mp h).1
      rw [show t.filter (fun q => q ≠ a) = release_item_lock t (some a) from rfl]
      rw [release_not_mem t a hnot, List.erase_cons_head]
    · simp only [release_item_lock, List.filter_cons]
      rw [if_pos (by simpa using hal)]
      rw [List.erase_cons_tail]
      · rw [show t.filter (fun q => q ≠ lp) = release_item_lock t (some lp)
          from rfl]
        rw [ih (List.nodup_cons.mp h).2]
      · simpa using hal

/-! ### The pool invariant holds initially and is preserved by every step -/

theorem map_eraseIdx {α β : Type} (f : α → β) :
    ∀ (l : List α) (i : Nat), (l.eraseIdx i).map f = (l.map f).eraseIdx i := by
  intro l
  induction l with
  | nil => intro i; rfl
  | cons a t ih =>
    intro i
    cases i with
    | zero => rfl
    | succ j => simp only [List.eraseIdx_cons_succ, List.map_cons, ih]

theorem sysInv_init (base : String) (artifact : List String) (W : Nat) :
    SysInv base (resolvedList base artifact : Multiset String)
      (initSys artifact W) := by
  have hidle : ∀ ph ∈ List.replicate W WPhase.idle, ph = WPhase.idle :=
    fun ph hph => List.eq_of_mem_replicate hph
  have hnil : inFlightOf (List.replicate W WPhase.idle) = [] :=
    inFlight_nil_of_all_idle hidle
  refine ⟨?_, ?_, ?_⟩ <;> dsimp only [initSys]
  · rw [hnil]
    simp
  · rw [hnil]
    simp
  · intro w f l h
    rw [List.getElem?_replicate] at h
    by_cases hw : w < W
    · rw [if_pos hw] at h
      simp at h
    · rw [if_neg hw] at h
      simp at h

theorem sysInv_step {base : String} {init : Multiset String} {s s' : Sys}
    (hnd : init.Nodup) (hinv : SysInv base init s) (hstep : Step base s s') :
    SysInv base init s' := by
  cases hstep with
  | acquireClaimed w full lp art' locks' hw hacq =>
    obtain ⟨i, hscan, hart, hlocks⟩ := acquire_some_inv hacq
    obtain ⟨rel, hrel, hfull, hlp, hnot, _⟩ := claim_scan_some_spec hscan
    have hresolved : (resolvedList base s.artifact : Multiset String) =
        full ::ₘ (resolvedList base art' : Multiset String) := by
      unfold resolvedList
      rw [hart, linesOf_eraseIdx]
      have hmap : ((linesOf s.artifact).map (resolveLine base))[i]? =
          some (resolveLine base rel) := by
        rw [List.getElem?_map, hrel]
        rfl
      have hcons := coe_cons_eraseIdx
        ((linesOf s.artifact).map (resolveLine base)) i
        (resolveLine base rel) hmap
      rw [← hfull] at hcons
      rw [map_eraseIdx]
      exact hcons
    refine ⟨?_, ?_, ?_⟩
    · show (resolvedList base art' : Multiset String)
        + (inFlightOf (s.phases.set w (WPhase.claimed full lp)) : Multiset String)
        + (s.attempted : Multiset String) = init
      rw [inFlight_set_claim s.phases w full lp hw]
      have hm := hinv.msum
      rw [hresolved] at hm
      rw [← hm]
      simp only [← Multiset.singleton_add]
      simp [add_comm, add_left_comm, add_assoc]
      exact List.Perm.append_left _ List.perm_middle.symm
    · show (locks' : Multiset String) = _
      rw [hlocks, ← Multiset.cons_coe,
        inFlight_set_claim s.phases w full lp hw, Multiset.map_cons,
        hinv.locks_eq, hlp, hfull]
    · intro w' f' l' h'
      rw [List.getElem?_set] at h'
      by_cases hww : w = w'
      · rw [if_pos hww] at h'
        by_cases hwlen : w < s.phases.length
        · rw [if_pos hwlen] at h'
          simp only [Option.some.injEq, WPhase.claimed.injEq] at h'
          rw [← h'.2, hlp, h'.1]
        · rw [if_neg hwlen] at h'
          simp at h'
      · rw [if_neg hww] at h'
        exact hinv.lock_shape w' f' l' h'
  | acquireNone w art' locks' hw hacq =>
    obtain ⟨hl, hcase⟩ := acquire_none_inv hacq
    refine ⟨?_, ?_, hinv.lock_shape⟩
    · show (resolvedList base art' : Multiset String)
        + (inFlightOf s.phases : Multiset String)
        + (s.attempted : Multiset String) = init
      rcases hcase with ⟨hemp, hart⟩ | ⟨_, hart⟩
      · have h0 : resolvedList base s.artifact = [] := by
          unfold resolvedList
          rw [hemp]
          rfl
        have h0' : resolvedList base art' = [] := by
          rw [hart]
          rfl
        have hm := hinv.msum
        rw [h0] at hm
        rw [h0']
        exact hm
      · rw [hart]
        exact hinv.msum
    · show (locks' : Multiset String) = _
      rw [hl]
      exact hinv.locks_eq
  | finish w full lp hw =>
    have hlpshape : lp = lockPathOf full := hinv.lock_shape w full lp hw
    have hifl := inFlight_set_finish s.phases w full lp hw
    have hIle : (inFlightOf s.phases : Multiset String) ≤ init := by
      rw [← hinv.msum]
      calc (inFlightOf s.phases : Multiset String)
          ≤ (resolvedList base s.artifact : Multiset String)
            + (inFlightOf s.phases : Multiset String) := Multiset.le_add_left _ _
        _ ≤ (resolvedList base s.artifact : Multiset String)
            + (inFlightOf s.phases : Multiset String)
            + (s.attempted : Multiset String) := Multiset.le_add_right _ _
    have hInodup : (inFlightOf s.phases : Multiset String).Nodup :=
      Multiset.nodup_of_le hIle hnd
    have hlocksNodup : s.locks.Nodup := by
      rw [← Multiset.coe_nodup, hinv.locks_eq]
      exact hInodup.map lockPathOf_inj
    have hlpmem : lp ∈ s.locks := by
      rw [← Multiset.mem_coe, hinv.locks_eq, hifl, Multiset.map_cons,
        hlpshape]
      exact Multiset.mem_cons_self _ _
    refine ⟨?_, ?_, ?_⟩
    · show (resolvedList base s.artifact : Multiset String)
        + (inFlightOf (s.phases.set w WPhase.idle) : Multiset String)
        + ((s.attempted ++ [full] : List String) : Multiset String) = init
      have hm := hinv.msum
      rw [hifl] at hm
      rw [← hm, ← Multiset.coe_add]
      have hsing : (([full] : List String) : Multiset String) =
          full ::ₘ 0 := rfl
      rw [hsing]
      simp only [← Multiset.singleton_add]
      simp [add_comm, add_left_comm, add_assoc]
    · show (release_item_lock s.locks (some lp) : Multiset String) = _
      rw [release_eq_erase _ _ hlocksNodup, ← Multiset.coe_erase,
        hinv.locks_eq, hifl, Multiset.map_cons, hlpshape,
        Multiset.erase_cons_head]
    · intro w' f' l' h'
      rw [List.getElem?_set] at h'
      by_cases hww : w = w'
      · rw [if_pos hww] at h'
        by_cases hwlen : w < s.phases.length
        · rw [if_pos hwlen] at h'
          simp at h'
        · rw [if_neg hwlen] at h'
          simp at h'
      · rw [if_neg hww] at h'
        exact hinv.lock_shape w' f' l' h'

theorem sysInv_reaches {base : String} {init : Multiset String}
    (hnd : init.Nodup) {s s' : Sys} (h0 : SysInv base init s)
    (hr : Reaches base s s') : SysInv base init s' := by
  induction hr with
  | refl => exact h0
  | tail _ hstep ih => exact sysInv_step hnd ih hstep

/-- C1 (confirmed): (i) for every job list whose resolved paths are
distinct and every worker count `W ≥ 1`, any complete run — a reachable
state where all workers are idle and the artifact is empty — has attempted
exactly the listed paths, each exactly once; (ii) when two workers race for
the same path, the first `make_item_lock` succeeds, the second observes
lock-creation failure and leaves the marker set unchanged, and the claim
scan moves on to the next candidate line. -/
theorem c1_run_and_race :
    (∀ (base : String) (artifact0 : List String) (W : Nat) (s : Sys),
      1 ≤ W →
      (resolvedList base artifact0).Nodup →
      Reaches base (initSys artifact0 W) s →
      (∀ ph ∈ s.phases, ph = WPhase.idle) →
      s.artifact = [] →
      ((s.attempted : Multiset String) =
        (resolvedList base artifact0 : Multiset String) ∧
       ∀ p ∈ resolvedList base artifact0, s.attempted.count p = 1))
    ∧ (∀ (locks : List String) (path : String),
      lockPathOf path ∉ locks →
      make_item_lock locks path =
        (some (lockPathOf path), lockPathOf path :: locks) ∧
      make_item_lock (lockPathOf path :: locks) path =
        (none, lockPathOf path :: locks) ∧
      ∀ (base rel : String) (rest : List String),
        resolveLine base rel = path →
        claim_scan base (lockPathOf path :: locks) (rel :: rest) =
          (claim_scan base (lockPathOf path :: locks) rest).map
            (fun r => (r.1 + 1, r.2))) := by
  constructor
  · intro base artifact0 W s hW hnd hr hidle hart
    have hinv := sysInv_reaches (by rwa [Multiset.coe_nodup])
      (sysInv_init base artifact0 W) hr
    have hmsum := hinv.msum
    have hR : resolvedList base s.artifact = [] := by
      rw [hart]
      rfl
    have hI : inFlightOf s.phases = [] := inFlight_nil_of_all_idle hidle
    rw [hR, hI] at hmsum
    have hatt : (s.attempted : Multiset String) =
        (resolvedList base artifact0 : Multiset String) := by
      simpa using hmsum
    refine ⟨hatt, ?_⟩
    intro p hp
    have hperm : s.attempted.Perm (resolvedList base artifact0) :=
      Multiset.coe_eq_coe.mp hatt
    rw [hperm.count_eq]
    exact List.count_eq_one_of_mem hnd hp
  · intro locks path hnot
    refine ⟨make_item_lock_not_mem hnot, ?_, ?_⟩
    · exact make_item_lock_mem (List.mem_cons_self _ _)
    · intro base rel rest hres
      simp only [claim_scan, hres]
      rw [make_item_lock_mem (List.mem_cons_self _ _)]
      cases hscan : claim_scan base (lockPathOf path :: locks) rest with
      | none => rfl
      | some v =>
        obtain ⟨i, f, l⟩ := v
        rfl

/-- A concrete complete run: one worker, job list `["a.mkv"]`.  First step:
the worker claims the only line; second step: it finishes and releases the
lock. -/
theorem exampleStep1 : Step "/data" (initSys ["a.mkv"] 1)
    ⟨[], ["/data/a.mkv.transcode.lock"],
     [WPhase.claimed "/data/a.mkv" "/data/a.mkv.transcode.lock"], []⟩ := by
  have h : Step "/data" (initSys ["a.mkv"] 1)
      ⟨[], ["/data/a.mkv.transcode.lock"],
       (initSys ["a.mkv"] 1).phases.set 0
         (WPhase.claimed "/data/a.mkv" "/data/a.mkv.transcode.lock"),
       (initSys ["a.mkv"] 1).attempted⟩ :=
    Step.acquireClaimed (initSys ["a.mkv"] 1) 0 "/data/a.mkv"
      "/data/a.mkv.transcode.lock" [] ["/data/a.mkv.transcode.lock"]
      (by decide) (by decide)
  exact h

/-- Second step of the concrete run: the worker finishes the claimed job. -/
theorem exampleStep2 : Step "/data"
    ⟨[], ["/data/a.mkv.transcode.lock"],
     [WPhase.claimed "/data/a.mkv" "/data/a.mkv.transcode.lock"], []⟩
    ⟨[], [], [WPhase.idle], ["/data/a.mkv"]⟩ := by
  have h : Step "/data"
      ⟨[], ["/data/a.mkv.transcode.lock"],
       [WPhase.claimed "/data/a.mkv" "/data/a.mkv.transcode.lock"], []⟩
      ⟨[], release_item_lock ["/data/a.mkv.transcode.lock"]
         (some "/data/a.mkv.transcode.lock"),
       ([WPhase.claimed "/data/a.mkv" "/data/a.mkv.transcode.lock"]).set 0
         WPhase.idle,
       ([] : List String) ++ ["/data/a.mkv"]⟩ :=
    Step.finish _ 0 "/data/a.mkv" "/data/a.mkv.transcode.lock" (by decide)
  exact h

/-- The two-step run reaches the terminal state. -/
theorem exampleRun : Reaches "/data" (initSys ["a.mkv"] 1)
    ⟨[], [], [WPhase.idle], ["/data/a.mkv"]⟩ :=
  Relation.ReflTransGen.tail (Relation.ReflTransGen.single exampleStep1)
    exampleStep2

/-- Witness for C1: the concrete one-worker run on `["a.mkv"]` attempts
`/data/a.mkv` exactly once, and the lock race on `/data/b.mkv` has exactly
one winner. -/
theorem c1_run_and_race_witness :
    ((["/data/a.mkv"] : List String) : Multiset String) =
      ((resolvedList "/data" ["a.mkv"] : List String) : Multiset String) ∧
    List.count "/data/a.mkv" ["/data/a.mkv"] = 1 ∧
    make_item_lock [] "/data/b.mkv" =
      (some "/data/b.mkv.transcode.lock", ["/data/b.mkv.transcode.lock"]) ∧
    make_item_lock ["/data/b.mkv.transcode.lock"] "/data/b.mkv" =
      (none, ["/data/b.mkv.transcode.lock"]) := by
  obtain ⟨h1, h2⟩ := c1_run_and_race.1 "/data" ["a.mkv"] 1
    ⟨[], [], [WPhase.idle], ["/data/a.mkv"]⟩ (by decide) (by decide)
    exampleRun (by decide) rfl
  obtain ⟨hm1, hm2, _⟩ := c1_run_and_race.2 [] "/data/b.mkv" (by decide)
  exact ⟨h1, h2 "/data/a.mkv" (by decide), hm1, hm2⟩

/-- C6 (confirmed): releasing an item lock is idempotent and total — a
`None` handle or an already-absent marker leaves the marker set unchanged
(never raises); the worker releases the lock on every exit path of a
claimed job, including when the pipeline crashes; and in any reachable
all-idle state of the pool, no lock marker remains. -/
theorem c6_release_no_leak :
    (∀ (locks : List String) (lp : String),
      release_item_lock (release_item_lock locks (some lp)) (some lp) =
        release_item_lock locks (some lp))
    ∧ (∀ locks : List String, release_item_lock locks none = locks)
    ∧ (∀ (locks : List String) (lp : String), lp ∉ locks →
      release_item_lock locks (some lp) = locks)
    ∧ (∀ (env : Env) (fs : FS) (failLog locks : List String)
        (base job lp : String),
      (worker_process_claimed env fs failLog locks base job lp).2 =
        release_item_lock locks (some lp))
    ∧ (∀ (base : String) (artifact0 : List String) (W : Nat) (s : Sys),
      (resolvedList base artifact0).Nodup →
      Reaches base (initSys artifact0 W) s →
      (∀ ph ∈ s.phases, ph = WPhase.idle) →
      s.locks = []) := by
  refine ⟨?_, ?_, ?_, ?_, ?_⟩
  · intro locks lp
    simp only [release_item_lock]
    apply List.filter_eq_self.mpr
    intro a ha
    have hb := List.of_mem_filter ha
    simpa using hb
  · intro locks
    rfl
  · intro locks lp h
    exact release_not_mem locks lp h
  · intro env fs failLog locks base job lp
    unfold worker_process_claimed
    cases transcode_file env fs job with
    | ok v =>
      obtain ⟨ok, fs1⟩ := v
      rfl
    | error e => rfl
  · intro base artifact0 W s hnd hr hidle
    have hinv := sysInv_reaches (by rwa [Multiset.coe_nodup])
      (sysInv_init base artifact0 W) hr
    have hle := hinv.locks_eq
    rw [inFlight_nil_of_all_idle hidle] at hle
    have hzero : (s.locks : Multiset String) = 0 := by simpa using hle
    exact (Multiset.coe_eq_zero s.locks).mp hzero

/-- Witness for C6 at concrete inputs, including the lock state of the
terminal state of the concrete run. -/
theorem c6_release_no_leak_witness :
    release_item_lock (release_item_lock ["x"] (some "x")) (some "x") =
      release_item_lock ["x"] (some "x") ∧
    release_item_lock ["y"] none = ["y"] ∧
    release_item_lock ["y"] (some "x") = ["y"] ∧
    (worker_process_claimed ⟨ProbeBeh.procErr, EncodeBeh.ok 0, false⟩ [] []
      ["/data/a.mkv.transcode.lock"] "/data" "/data/a.mkv"
      "/data/a.mkv.transcode.lock").2 =
      release_item_lock ["/data/a.mkv.transcode.lock"]
        (some "/data/a.mkv.transcode.lock") ∧
    Sys.locks ⟨[], [], [WPhase.idle], ["/data/a.mkv"]⟩ = [] := by
  refine ⟨c6_release_no_leak.1 ["x"] "x",
    c6_release_no_leak.2.1 ["y"],
    c6_release_no_leak.2.2.1 ["y"] "x" (by decide),
    c6_release_no_leak.2.2.2.1 ⟨ProbeBeh.procErr, EncodeBeh.ok 0, false⟩ [] []
      ["/data/a.mkv.transcode.lock"] "/data" "/data/a.mkv"
      "/data/a.mkv.transcode.lock",
    c6_release_no_leak.2.2.2.2 "/data" ["a.mkv"] 1
      ⟨[], [], [WPhase.idle], ["/data/a.mkv"]⟩ (by decide) exampleRun
      (by decide)⟩

end Transcode
